import Mathlib

/-!
Verification of the Plinko PIR reference server.

This file embeds the core of the repository (PRSet expansion, database
loading, the query engine of `plinko_core.py`, the HTTP error translation of
`handlers.py`, and an iPRF model) as executable Lean definitions and proves
the specified properties about them.

The AES-128 block cipher used by `prset.py` comes from the external
`cryptography` library, not from this repository; it is modelled as an
abstract 16-byte-block function `E : List Nat → List Nat` (one such function
per 16-byte key).  Bytes are modelled as natural numbers below 256, Python's
unbounded integers as `Int`/`Nat`, and raised exceptions as the `Except`
monad over an explicit error type.
-/

namespace Plinko

/-- Python exception kinds raised by the embedded code, with their messages.
`valueError` is `ValueError`, `indexError` is `IndexError`, `databaseError`
is the repository's `DatabaseError`. -/
inductive PyErr where
  | valueError (msg : String)
  | indexError (msg : String)
  | databaseError (msg : String)
deriving DecidableEq, Repr

/-- Decode a big-endian byte list as an unsigned integer
(`struct.unpack` of format `>Q` on an 8-byte slice). -/
def decodeBE (l : List Nat) : Nat :=
  l.foldl (fun acc b => acc * 256 + b) 0

/-- Big-endian 8-byte encoding of a 64-bit value
(`struct.pack_into` of format `>Q`). -/
def be64 (v : Nat) : List Nat :=
  [v / 2 ^ 56 % 256, v / 2 ^ 48 % 256, v / 2 ^ 40 % 256, v / 2 ^ 32 % 256,
   v / 2 ^ 24 % 256, v / 2 ^ 16 % 256, v / 2 ^ 8 % 256, v % 256]

/-- The 16-byte AES input block built by `PRSet.prf_eval_mod`: zero high
8 bytes, `x` big-endian in the last 8 bytes. -/
def inputBlock (x : Nat) : List Nat :=
  List.replicate 8 0 ++ be64 x

/-- Leading 8 bytes of a cipher output block, read as a big-endian
unsigned 64-bit integer (`struct.unpack` of `>Q` on `output_block[:8]`). -/
def msb64 (out : List Nat) : Nat :=
  decodeBE (out.take 8)

/-- `PRSet.prf_eval_mod` from `prset.py`: returns 0 when the modulus is 0,
otherwise the leading 8 bytes of the AES encryption of `inputBlock x`,
reduced mod `m`.  `E` is the AES-128 block function for this PRSet's key. -/
def prf_eval_mod (E : List Nat → List Nat) (x m : Nat) : Nat :=
  if m = 0 then 0 else msb64 (E (inputBlock x)) % m

/-- `PRSet.expand` from `prset.py`: for `i` in `range(set_size)` emit
`i * chunk_size + prf_eval_mod i chunk_size`. -/
def expand (E : List Nat → List Nat) (set_size chunk_size : Nat) : List Nat :=
  (List.range set_size).map (fun i => i * chunk_size + prf_eval_mod E i chunk_size)

/-- `utils.validate_index`: `ValueError` when the index is negative or not
below `max_index`, mirroring the exact message strings of `utils.py`. -/
def validate_index (index : Int) (max_index : Nat) : Except PyErr Unit :=
  if index < 0 then
    .error (.valueError ("Index cannot be negative: " ++ toString index))
  else if (max_index : Int) ≤ index then
    .error (.valueError ("Index " ++ toString index ++ " out of bounds [0, " ++
      toString max_index ++ ")"))
  else
    .ok ()

/-- `utils.validate_prf_key`: `ValueError` unless the key is exactly
16 bytes. -/
def validate_prf_key (key_data : List Nat) : Except PyErr Unit :=
  if key_data.length ≠ 16 then
    .error (.valueError ("PRF key must be 16 bytes, got " ++ toString key_data.length))
  else
    .ok ()

/-- `utils.compute_xor`: left fold of XOR over the list, starting at 0. -/
def compute_xor (values : List Nat) : Nat :=
  values.foldl (fun result value => Nat.xor result value) 0

/-- `PlinkoDatabase.load` parsing step: entry `i` is the big-endian decode
of bytes `8*i .. 8*i+7` of the file. -/
def parseEntries (binary : List Nat) : List Nat :=
  (List.range (binary.length / 8)).map (fun i => decodeBE ((binary.drop (8 * i)).take 8))

/-- `PlinkoDatabase.load` from `database.py` (the parsing part, after the
file has been read): fails with `DatabaseError` when the file length is not
a multiple of the entry size 8, otherwise yields the decoded records. -/
def load (binary : List Nat) : Except PyErr (List Nat) :=
  if binary.length % 8 ≠ 0 then
    .error (.databaseError ("Database file size " ++ toString binary.length ++
      " is not a multiple of entry size 8"))
  else
    .ok (parseEntries binary)

/-- `PlinkoDatabase.get_entry`: `IndexError` outside `[0, size)`, otherwise
the stored record. -/
def get_entry (data : List Nat) (index : Int) : Except PyErr Nat :=
  if index < 0 ∨ (data.length : Int) ≤ index then
    .error (.indexError ("Database index " ++ toString index ++ " out of bounds [0, " ++
      toString data.length ++ ")"))
  else
    .ok (data.getD index.toNat 0)

/-- `PlinkoPIRServer.__init__`: `chunk_size = max(1, db_size // 1024)`. -/
def chunk_size (db_size : Nat) : Nat :=
  max 1 (db_size / 1024)

/-- `PlinkoPIRServer.__init__`: `set_size = max(1, db_size // chunk_size)`. -/
def set_size (db_size : Nat) : Nat :=
  max 1 (db_size / chunk_size db_size)

/-- Result of `PlinkoPIRServer.health_check` (the timing-free fields). -/
structure HealthStatus where
  status : String
  database_loaded : Bool
  database_size : Nat
  chunkSize : Nat
  setSize : Nat
deriving DecidableEq, Repr

/-- `PlinkoPIRServer.health_check`: `database_loaded` is `db_size > 0`. -/
def health_check (db : List Nat) : HealthStatus :=
  { status := "healthy"
    database_loaded := decide (0 < db.length)
    database_size := db.length
    chunkSize := chunk_size db.length
    setSize := set_size db.length }

/-- Sequential validation of a list of indices, as the `for idx in indices`
loops of `plinko_core.py`: the first invalid index raises. -/
def validateIndices (indices : List Int) (max_index : Nat) : Except PyErr Unit :=
  match indices with
  | [] => .ok ()
  | i :: rest => do
      validate_index i max_index
      validateIndices rest max_index

/-- `PlinkoPIRServer.plaintext_query` (value field only): validate the
index, then read the entry. -/
def plaintext_query (db : List Nat) (index : Int) : Except PyErr Nat := do
  validate_index index db.length
  get_entry db index

/-- `PlinkoPIRServer.full_set_query` (value field only): validate the key,
expand the PRSet, validate every produced index, then XOR the referenced
records.  `E` is the AES-128 block function keyed by `prf_key`. -/
def full_set_query (E : List Nat → List Nat) (db : List Nat)
    (prf_key : List Nat) : Except PyErr Nat := do
  validate_prf_key prf_key
  let indices := (expand E (set_size db.length) (chunk_size db.length)).map
    (fun i => Int.ofNat i)
  validateIndices indices db.length
  let vals ← indices.mapM (fun i => get_entry db i)
  pure (compute_xor vals)

/-- `PlinkoPIRServer.set_parity_query` (parity field only): reject an empty
list, validate every index, then XOR the referenced records. -/
def set_parity_query (db : List Nat) (indices : List Int) : Except PyErr Nat :=
  if indices.isEmpty then
    .error (.valueError "Indices list cannot be empty")
  else do
    validateIndices indices db.length
    let vals ← indices.mapM (fun i => get_entry db i)
    pure (compute_xor vals)

/-- HTTP outcome of a handler in `handlers.py`: 200 with a value, 400 with
the exception's message as the error body, or 500 with the generic body. -/
inductive HandlerResult where
  | success (value : Nat)
  | clientError (body : String)
  | serverError (body : String)
deriving DecidableEq, Repr

/-- HTTP status code of a handler outcome. -/
def statusCode : HandlerResult → Nat
  | .success _ => 200
  | .clientError _ => 400
  | .serverError _ => 500

/-- The `except ValueError as e: return {"error": str(e)}, 400` /
`except Exception: return {"error": "Internal server error"}, 500`
translation shared by the query handlers of `handlers.py`. -/
def toResponse (r : Except PyErr Nat) : HandlerResult :=
  match r with
  | .ok v => .success v
  | .error (.valueError msg) => .clientError msg
  | .error _ => .serverError "Internal server error"

/-- `handlers.plaintext_query_handler` after JSON decoding: validate the
index, read the entry, translate exceptions to HTTP responses. -/
def plaintext_query_handler (db : List Nat) (index : Int) : HandlerResult :=
  toResponse (plaintext_query db index)

/-- `handlers.full_set_query_handler` after JSON/hex decoding. -/
def full_set_query_handler (E : List Nat → List Nat) (db : List Nat)
    (prf_key : List Nat) : HandlerResult :=
  toResponse (full_set_query E db prf_key)

/-- `handlers.set_parity_query_handler` after JSON decoding. -/
def set_parity_query_handler (db : List Nat) (indices : List Int) : HandlerResult :=
  toResponse (set_parity_query db indices)

/-- A concrete stand-in block cipher (constant zero block), used to
evaluate the embedding at concrete inputs. -/
def zeroCipher : List Nat → List Nat :=
  fun _ => List.replicate 16 0

/-- Modelled from the spec: the iPRF implementation (`iprf.py`, class
`IPRF` with `forward` and `inverse`) is not under `src/`; only
`tests/test_iprf.py` refers to it.  Following §4.D, the iPRF realises
`F : [0, n) → [0, m)` by a binary tree over the range interval: a node
covering bins `[rlo, rhi)` holds `B` balls and splits them into `L` balls
for the left half and `B − L` for the right by a deterministic clamped
binomial draw keyed by the node's identity and parameterised by the
*current* ball count `B` (parameter separation).  The whole keyed sampling
pipeline — `H(key, encode_node(...))`, the `Φ⁻¹` approximation and the
clamp to `[0, B]` — is abstracted as a sampler function
`samp rlo rhi B`, clamped here to at most `B`; the balls are ordered, the
first `L` going left, and `forward` descends with the ball rank of `x`
(the spec leaves the domain-tree leaf-count-to-element mapping open, so
ranks are taken in domain order).  Recursion is bounded by a fuel
argument, sufficient because each step at least halves the interval. -/
def forwardAux (samp : Nat → Nat → Nat → Nat) :
    Nat → Nat → Nat → Nat → Nat → Nat
  | 0, rlo, _, _, _ => rlo
  | fuel + 1, rlo, rhi, B, r =>
    if rhi ≤ rlo + 1 then rlo
    else if r < min (samp rlo rhi B) B then
      forwardAux samp fuel rlo ((rlo + rhi) / 2) (min (samp rlo rhi B) B) r
    else
      forwardAux samp fuel ((rlo + rhi) / 2) rhi (B - min (samp rlo rhi B) B)
        (r - min (samp rlo rhi B) B)

/-- Modelled from the spec: iPRF forward evaluation — descend the range
tree over `[0, m)` starting with all `n` balls, `x` at rank `x`. -/
def iprfForward (samp : Nat → Nat → Nat → Nat) (n m x : Nat) : Nat :=
  forwardAux samp m 0 m n x

/-- Modelled from the spec: the inverse walk replays the identical
binomial splits to locate the rank interval `(offset, count)` of the balls
landing in bin `y` (§4.D inverse: replay the split used by `forward` and
track the bin count flowing into each subtree). -/
def inverseAux (samp : Nat → Nat → Nat → Nat) :
    Nat → Nat → Nat → Nat → Nat → Nat → Nat × Nat
  | 0, _, _, B, ofs, _ => (ofs, B)
  | fuel + 1, rlo, rhi, B, ofs, y =>
    if rhi ≤ rlo + 1 then (ofs, B)
    else if y < (rlo + rhi) / 2 then
      inverseAux samp fuel rlo ((rlo + rhi) / 2) (min (samp rlo rhi B) B) ofs y
    else
      inverseAux samp fuel ((rlo + rhi) / 2) rhi (B - min (samp rlo rhi B) B)
        (ofs + min (samp rlo rhi B) B) y

/-- Modelled from the spec: iPRF inverse — enumerate the preimage of bin
`y` as the rank interval discovered by replaying the splits. -/
def iprfInverse (samp : Nat → Nat → Nat → Nat) (n m y : Nat) : List Nat :=
  let p := inverseAux samp m 0 m n 0 y
  (List.range p.2).map (fun j => p.1 + j)

/-- A concrete deterministic sampler (half the balls go left), used to
evaluate the iPRF model at concrete inputs. -/
def halfSampler : Nat → Nat → Nat → Nat :=
  fun _ _ B => B / 2

/-! ### Helper lemmas -/

theorem validate_index_ok {i : Int} {n : Nat} (h0 : 0 ≤ i) (h1 : i < (n : Int)) :
    validate_index i n = .ok () := by
  unfold validate_index
  rw [if_neg (by omega), if_neg (by omega)]

theorem validate_index_err {i : Int} {n : Nat} (h : i < 0 ∨ (n : Int) ≤ i) :
    ∃ msg, validate_index i n = .error (.valueError msg) := by
  unfold validate_index
  rcases h with h | h
  · exact ⟨_, by rw [if_pos h]⟩
  · by_cases h0 : i < 0
    · exact ⟨_, by rw [if_pos h0]⟩
    · exact ⟨_, by rw [if_neg h0, if_pos h]⟩

theorem validateIndices_ok {L : List Int} {n : Nat}
    (h : ∀ i ∈ L, 0 ≤ i ∧ i < (n : Int)) :
    validateIndices L n = .ok () := by
  induction L with
  | nil => rfl
  | cons a l ih =>
    obtain ⟨h0, h1⟩ := h a (by simp)
    simp only [validateIndices, validate_index_ok h0 h1]
    exact ih (fun i hi => h i (by simp [hi]))

theorem validateIndices_err {L : List Int} {n : Nat}
    (h : ∃ i ∈ L, i < 0 ∨ (n : Int) ≤ i) :
    ∃ msg, validateIndices L n = .error (.valueError msg) := by
  induction L with
  | nil => simp at h
  | cons a l ih =>
    by_cases ha : a < 0 ∨ (n : Int) ≤ a
    · obtain ⟨msg, hmsg⟩ := validate_index_err ha
      exact ⟨msg, by simp only [validateIndices, hmsg]; rfl⟩
    · have ha' : 0 ≤ a ∧ a < (n : Int) := by omega
      obtain ⟨msg, hmsg⟩ := ih (by
        obtain ⟨i, hi, hbad⟩ := h
        rcases List.mem_cons.mp hi with rfl | hi'
        · omega
        · exact ⟨i, hi', hbad⟩)
      exact ⟨msg, by simp only [validateIndices, validate_index_ok ha'.1 ha'.2, hmsg]; rfl⟩

theorem get_entry_ok {db : List Nat} {i : Int} (h0 : 0 ≤ i)
    (h1 : i < (db.length : Int)) :
    get_entry db i = .ok (db.getD i.toNat 0) := by
  unfold get_entry
  rw [if_neg (by omega)]

theorem mapM_get_entry_ok {db : List Nat} {L : List Int}
    (h : ∀ i ∈ L, 0 ≤ i ∧ i < (db.length : Int)) :
    L.mapM (fun i => get_entry db i) = .ok (L.map (fun i => db.getD i.toNat 0)) := by
  induction L with
  | nil => rfl
  | cons a l ih =>
    obtain ⟨h0, h1⟩ := h a (by simp)
    rw [List.mapM_cons, get_entry_ok h0 h1, ih (fun i hi => h i (by simp [hi]))]
    rfl

theorem prf_eval_mod_lt {E : List Nat → List Nat} {x c : Nat} (hc : 0 < c) :
    prf_eval_mod E x c < c := by
  unfold prf_eval_mod
  rw [if_neg (by omega)]
  exact Nat.mod_lt _ hc

theorem expand_length (E : List Nat → List Nat) (k c : Nat) :
    (expand E k c).length = k := by
  simp [expand]

theorem expand_getD {E : List Nat → List Nat} {k c i : Nat} (h : i < k) :
    (expand E k c).getD i 0 = i * c + prf_eval_mod E i c := by
  unfold expand
  rw [List.getD_eq_getElem?_getD, List.getElem?_map, List.getElem?_range h]
  rfl

theorem chunk_size_pos (n : Nat) : 0 < chunk_size n := by
  unfold chunk_size
  omega

theorem set_size_pos (n : Nat) : 0 < set_size n := by
  unfold set_size
  omega

theorem set_mul_chunk_le {n : Nat} (h : 1 ≤ n) :
    set_size n * chunk_size n ≤ n := by
  unfold set_size chunk_size
  rcases Nat.lt_or_ge n 1024 with h1 | h1
  · rw [Nat.div_eq_of_lt h1]
    have e1 : max 1 0 = 1 := rfl
    rw [e1, Nat.div_one]
    omega
  · have hq : 1 ≤ n / 1024 := (Nat.one_le_div_iff (by norm_num)).mpr h1
    rw [Nat.max_eq_right hq]
    have hq' : 1 ≤ n / (n / 1024) :=
      (Nat.one_le_div_iff (by omega)).mpr (Nat.div_le_self n 1024)
    rw [Nat.max_eq_right hq']
    exact Nat.div_mul_le_self n (n / 1024)

theorem mem_expand_lt {E : List Nat → List Nat} {k c x : Nat} (hc : 1 ≤ c)
    (hx : x ∈ expand E k c) : x < k * c := by
  unfold expand at hx
  obtain ⟨i, hi, rfl⟩ := List.mem_map.mp hx
  have hik : i < k := List.mem_range.mp hi
  have hoff : prf_eval_mod E i c < c := prf_eval_mod_lt hc
  have h1 : (i + 1) * c ≤ k * c := Nat.mul_le_mul_right c hik
  have h2 : i * c + prf_eval_mod E i c < (i + 1) * c := by
    rw [Nat.succ_mul]
    omega
  omega

/-! ### Claims -/

/-- C2: the parameters derived at server construction are
`chunk_size = max 1 (n / 1024)` and `set_size = max 1 (n / chunk_size)`
(integer division), and for every `n ≥ 1` they satisfy
`set_size * chunk_size ≤ n`.  (At `n = 0` both parameters are 1 and the
product exceeds `n`; see the counterexample.) -/
theorem params_formula_and_invariant : ∀ n : Nat,
    chunk_size n = max 1 (n / 1024) ∧
    set_size n = max 1 (n / chunk_size n) ∧
    (1 ≤ n → set_size n * chunk_size n ≤ n) :=
  fun _ => ⟨rfl, rfl, fun h => set_mul_chunk_le h⟩

/-- C2 counterexample: at database size 0 the derived parameters are both
1, so `set_size · chunk_size = 1 > 0 = n` and the claimed invariant fails
for `n = 0`. -/
theorem params_invariant_fails_at_zero :
    chunk_size 0 = 1 ∧ set_size 0 = 1 ∧ ¬(set_size 0 * chunk_size 0 ≤ 0) := by
  decide

theorem params_formula_and_invariant_witness :
    1 ≤ 2048 ∧ set_size 2048 * chunk_size 2048 ≤ 2048 :=
  ⟨by decide, (params_formula_and_invariant 2048).2.2 (by decide)⟩

/-- C3: for every cipher, set size `k` and chunk size `c`, `expand` returns
exactly `k` indices, the `i`-th being `i * c + prf_eval_mod i c`, where
`prf_eval_mod x m` is the leading 8 bytes of the AES encryption of the
16-byte block with `x` big-endian in the last 8 bytes, read big-endian and
reduced mod `m`, with `prf_eval_mod x 0 = 0`; for `c ≥ 1` the `i`-th
element lies in the chunk `[i*c, (i+1)*c)`. -/
theorem expand_spec : ∀ (E : List Nat → List Nat) (k c : Nat),
    (expand E k c).length = k ∧
    (∀ x, prf_eval_mod E x 0 = 0) ∧
    (∀ x m, 0 < m → prf_eval_mod E x m = msb64 (E (inputBlock x)) % m) ∧
    (∀ i, i < k → (expand E k c).getD i 0 = i * c + prf_eval_mod E i c) ∧
    (1 ≤ c → ∀ i, i < k →
      i * c ≤ (expand E k c).getD i 0 ∧ (expand E k c).getD i 0 < (i + 1) * c) := by
  intro E k c
  refine ⟨expand_length E k c, fun x => rfl, fun x m hm => ?_, fun i hi => expand_getD hi, ?_⟩
  · unfold prf_eval_mod
    rw [if_neg (by omega)]
  · intro hc i hi
    rw [expand_getD hi]
    have hoff : prf_eval_mod E i c < c := prf_eval_mod_lt hc
    have h2 : i * c + c = (i + 1) * c := (Nat.succ_mul i c).symm
    omega

theorem expand_spec_witness :
    2 < 3 ∧ 1 ≤ 5 ∧
    (expand zeroCipher 3 5).getD 2 0 = 2 * 5 + prf_eval_mod zeroCipher 2 5 ∧
    2 * 5 ≤ (expand zeroCipher 3 5).getD 2 0 ∧
    (expand zeroCipher 3 5).getD 2 0 < (2 + 1) * 5 :=
  ⟨by decide, by decide,
   (expand_spec zeroCipher 3 5).2.2.2.1 2 (by decide),
   ((expand_spec zeroCipher 3 5).2.2.2.2 (by decide) 2 (by decide)).1,
   ((expand_spec zeroCipher 3 5).2.2.2.2 (by decide) 2 (by decide)).2⟩

/-- C9: for every cipher, set size `k` and chunk size `c ≥ 1`, the list
returned by `expand` is strictly increasing, hence its `k` indices are
pairwise distinct. -/
theorem expand_strictly_increasing : ∀ (E : List Nat → List Nat) (k c : Nat),
    1 ≤ c →
    List.Pairwise (· < ·) (expand E k c) ∧ (expand E k c).Nodup ∧
    (expand E k c).length = k := by
  intro E k c hc
  have hp : List.Pairwise (· < ·) (expand E k c) := by
    unfold expand
    rw [List.pairwise_map]
    refine List.Pairwise.imp ?_ (List.pairwise_lt_range k)
    intro i j hij
    have hoff : prf_eval_mod E i c < c := prf_eval_mod_lt hc
    have h1 : (i + 1) * c ≤ j * c := Nat.mul_le_mul_right c hij
    have h2 : i * c + c = (i + 1) * c := (Nat.succ_mul i c).symm
    omega
  exact ⟨hp, hp.imp (fun h => Nat.ne_of_lt h), expand_length E k c⟩

theorem expand_strictly_increasing_witness :
    1 ≤ 5 ∧
    (List.Pairwise (· < ·) (expand zeroCipher 3 5) ∧ (expand zeroCipher 3 5).Nodup ∧
     (expand zeroCipher 3 5).length = 3) :=
  ⟨by decide, expand_strictly_increasing zeroCipher 3 5 (by decide)⟩

/-- C1 counterexample: on the empty database (`n = 0`) a full-set query
with a valid 16-byte key does not succeed — the single expanded index 0 is
out of range — so the claim's unconditional "succeeds" fails at `n = 0`. -/
theorem full_set_fails_on_empty_db :
    full_set_query zeroCipher [] (List.replicate 16 0) =
      .error (.valueError "Index 0 out of bounds [0, 0)") := by
  rfl

/-- C1 (amended to non-empty databases): for every cipher, 16-byte key and
database with `n ≥ 1` records, `full_set_query` succeeds and its value
equals the parity computed by `set_parity_query` on the index list produced
by expanding the PRSet with the derived parameters. -/
theorem full_set_matches_set_parity :
    ∀ (E : List Nat → List Nat) (db key : List Nat),
    key.length = 16 → 0 < db.length →
    ∃ v, full_set_query E db key = .ok v ∧
      set_parity_query db
        ((expand E (set_size db.length) (chunk_size db.length)).map
          (fun i => Int.ofNat i)) = .ok v := by
  intro E db key hkey hn
  have hc : 0 < chunk_size db.length := chunk_size_pos db.length
  have hbound : ∀ i ∈ (expand E (set_size db.length) (chunk_size db.length)).map
      (fun i => Int.ofNat i), 0 ≤ i ∧ i < (db.length : Int) := by
    intro i hi
    obtain ⟨x, hx, rfl⟩ := List.mem_map.mp hi
    have h1 : x < set_size db.length * chunk_size db.length := mem_expand_lt hc hx
    have h2 : set_size db.length * chunk_size db.length ≤ db.length :=
      set_mul_chunk_le hn
    constructor
    · exact Int.ofNat_nonneg x
    · exact Int.ofNat_lt.mpr (Nat.lt_of_lt_of_le h1 h2)
  have hvk : validate_prf_key key = .ok () := by
    unfold validate_prf_key
    rw [if_neg (by omega)]
  have hvi := validateIndices_ok hbound
  have hmm := mapM_get_entry_ok hbound
  have hne : (expand E (set_size db.length) (chunk_size db.length)).map
      (fun i => Int.ofNat i) ≠ [] := by
    have : 0 < set_size db.length := set_size_pos db.length
    intro hcon
    have := congrArg List.length hcon
    simp [expand_length] at this
    omega
  refine ⟨compute_xor (((expand E (set_size db.length) (chunk_size db.length)).map
    (fun i => Int.ofNat i)).map (fun i => db.getD i.toNat 0)), ?_, ?_⟩
  · simp only [full_set_query]
    rw [hvk, hvi, hmm]
    rfl
  · simp only [set_parity_query]
    rw [if_neg (by simpa [List.isEmpty_iff] using hne), hvi, hmm]
    rfl

theorem full_set_matches_set_parity_witness :
    (List.replicate 16 (0 : Nat)).length = 16 ∧ 0 < [(5 : Nat)].length ∧
    ∃ v, full_set_query zeroCipher [5] (List.replicate 16 0) = .ok v ∧
      set_parity_query [5]
        ((expand zeroCipher (set_size [(5 : Nat)].length)
          (chunk_size [(5 : Nat)].length)).map (fun i => Int.ofNat i)) = .ok v :=
  ⟨by decide, by decide,
   full_set_matches_set_parity zeroCipher [5] (List.replicate 16 0)
     (by decide) (by decide)⟩

/-- C5: for a list of in-range indices, `set_parity_query` returns the XOR
of the referenced records (duplicates processed as given), and it fails
exactly when the list is empty or some element lies outside `[0, n)`; on
failure no value is returned. -/
theorem set_parity_spec : ∀ (db : List Nat) (L : List Int),
    ((L ≠ [] ∧ ∀ i ∈ L, 0 ≤ i ∧ i < (db.length : Int)) →
      set_parity_query db L =
        .ok (compute_xor (L.map (fun i => db.getD i.toNat 0)))) ∧
    ((∃ e, set_parity_query db L = .error e) ↔
      (L = [] ∨ ∃ i ∈ L, i < 0 ∨ (db.length : Int) ≤ i)) := by
  intro db L
  have hsucc : (L ≠ [] ∧ ∀ i ∈ L, 0 ≤ i ∧ i < (db.length : Int)) →
      set_parity_query db L =
        .ok (compute_xor (L.map (fun i => db.getD i.toNat 0))) := by
    rintro ⟨hne, hval⟩
    simp only [set_parity_query]
    rw [if_neg (by simpa [List.isEmpty_iff] using hne),
      validateIndices_ok hval, mapM_get_entry_ok hval]
    rfl
  refine ⟨hsucc, ?_, ?_⟩
  · rintro ⟨e, he⟩
    by_contra hcon
    push_neg at hcon
    obtain ⟨hne, hgood⟩ := hcon
    have hval : ∀ i ∈ L, 0 ≤ i ∧ i < (db.length : Int) := by
      intro i hi
      have := hgood i hi
      omega
    rw [hsucc ⟨hne, hval⟩] at he
    exact Except.noConfusion he
  · intro h
    by_cases hL : L = []
    · subst hL
      exact ⟨.valueError "Indices list cannot be empty", rfl⟩
    · have hbad : ∃ i ∈ L, i < 0 ∨ (db.length : Int) ≤ i := by
        rcases h with h | h
        · exact absurd h hL
        · exact h
      obtain ⟨msg, hmsg⟩ := validateIndices_err hbad
      refine ⟨.valueError msg, ?_⟩
      simp only [set_parity_query]
      rw [if_neg (by simpa [List.isEmpty_iff] using hL), hmsg]
      rfl

theorem set_parity_spec_witness :
    (([0, 2, 0] : List Int) ≠ [] ∧
      ∀ i ∈ ([0, 2, 0] : List Int), 0 ≤ i ∧ i < (([1, 2, 3] : List Nat).length : Int)) ∧
    set_parity_query [1, 2, 3] [0, 2, 0] =
      .ok (compute_xor (([0, 2, 0] : List Int).map
        (fun i => ([1, 2, 3] : List Nat).getD i.toNat 0))) :=
  ⟨⟨by decide, by decide⟩,
   (set_parity_spec [1, 2, 3] [0, 2, 0]).1 ⟨by decide, by decide⟩⟩

/-- C6: after a successful load, `plaintext_query i` for `i ∈ [0, n)`
returns exactly the big-endian decode of bytes `8*i .. 8*i+7` of the
database file, and every integer index outside `[0, n)` fails. -/
theorem plaintext_query_spec : ∀ (file db : List Nat),
    load file = .ok db →
    (∀ i : Nat, i < db.length →
      plaintext_query db (i : Int) = .ok (decodeBE ((file.drop (8 * i)).take 8))) ∧
    (∀ j : Int, (j < 0 ∨ (db.length : Int) ≤ j) →
      ∃ e, plaintext_query db j = .error e) := by
  intro file db hload
  have hdb : parseEntries file = db := by
    unfold load at hload
    split at hload
    · simp at hload
    · simpa using hload
  subst hdb
  have hplen : (parseEntries file).length = file.length / 8 := by
    simp [parseEntries]
  constructor
  · intro i hi
    have hi' : i < file.length / 8 := by omega
    have hv : (parseEntries file).getD ((i : Int)).toNat 0 =
        decodeBE ((file.drop (8 * i)).take 8) := by
      rw [Int.toNat_ofNat]
      unfold parseEntries
      rw [List.getD_eq_getElem?_getD, List.getElem?_map, List.getElem?_range hi']
      rfl
    have h1 : validate_index (i : Int) (parseEntries file).length = .ok () :=
      validate_index_ok (Int.ofNat_nonneg i) (by exact_mod_cast hi)
    have h2 : get_entry (parseEntries file) (i : Int) =
        .ok (decodeBE ((file.drop (8 * i)).take 8)) := by
      rw [get_entry_ok (Int.ofNat_nonneg i) (by exact_mod_cast hi), hv]
    unfold plaintext_query
    rw [h1]
    exact h2
  · intro j hj
    obtain ⟨msg, hmsg⟩ := validate_index_err hj
    refine ⟨.valueError msg, ?_⟩
    unfold plaintext_query
    rw [hmsg]
    rfl

theorem plaintext_query_spec_witness :
    load [0, 0, 0, 0, 0, 0, 1, 2] = .ok [258] ∧ 0 < [(258 : Nat)].length ∧
    plaintext_query [258] ((0 : Nat) : Int) =
      .ok (decodeBE ((([0, 0, 0, 0, 0, 0, 1, 2] : List Nat).drop (8 * 0)).take 8)) :=
  ⟨rfl, by decide,
   (plaintext_query_spec [0, 0, 0, 0, 0, 0, 1, 2] [258] rfl).1 0 (by decide)⟩

/-- C10: a zero-length database file loads successfully with `n = 0`, and
`health_check` then reports status "healthy" with `database_loaded = false`;
in general `database_loaded` is the predicate `n > 0`. -/
theorem empty_db_loads_health :
    load [] = .ok [] ∧
    (health_check []).status = "healthy" ∧
    (health_check []).database_loaded = false ∧
    ∀ db : List Nat, (health_check db).database_loaded = decide (0 < db.length) :=
  ⟨rfl, rfl, rfl, fun _ => rfl⟩

/-- C4 (code slip): on a database with 0 records, every 16-byte key makes
the PRSet expansion produce index 0, which is outside `[0, 0)`; the
resulting `ValueError` from `validate_index` is caught by the handler's
`except ValueError` branch and surfaced as HTTP 400 with a body echoing the
index — not as the Internal (HTTP 500, generic message) error kind the
specification assigns to this invariant breach. -/
theorem full_set_out_of_range_gives_400 : ∀ E : List Nat → List Nat,
    full_set_query_handler E [] (List.replicate 16 0) =
      .clientError "Index 0 out of bounds [0, 0)" ∧
    statusCode (full_set_query_handler E [] (List.replicate 16 0)) = 400 := by
  intro E
  have he : expand E (set_size 0) (chunk_size 0) = [0] := by
    show expand E 1 1 = [0]
    have hr : List.range 1 = [0] := rfl
    simp [expand, prf_eval_mod, Nat.mod_one, hr]
  have h : full_set_query E [] (List.replicate 16 0) =
      .error (.valueError "Index 0 out of bounds [0, 0)") := by
    simp only [full_set_query, List.length_nil, he]
    rfl
  constructor
  · simp only [full_set_query_handler, h]
    rfl
  · simp only [full_set_query_handler, h]
    rfl

/-- C8 (code slip): the 400 error bodies produced for rejected requests
embed the caller-supplied index — two different out-of-range plaintext
indices (and likewise two rejected set-parity lists) yield different
bodies, contradicting the rule that messages must not echo the index. -/
theorem rejected_bodies_echo_index :
    plaintext_query_handler [10, 20, 30] 3 =
      .clientError "Index 3 out of bounds [0, 3)" ∧
    plaintext_query_handler [10, 20, 30] 4 =
      .clientError "Index 4 out of bounds [0, 3)" ∧
    plaintext_query_handler [10, 20, 30] 3 ≠ plaintext_query_handler [10, 20, 30] 4 ∧
    set_parity_query_handler [10, 20, 30] [3] ≠
      set_parity_query_handler [10, 20, 30] [4] := by
  exact ⟨rfl, rfl, by decide, by decide⟩

theorem forwardAux_mem (samp : Nat → Nat → Nat → Nat) :
    ∀ (fuel rlo rhi B r : Nat), rlo < rhi →
    rlo ≤ forwardAux samp fuel rlo rhi B r ∧ forwardAux samp fuel rlo rhi B r < rhi := by
  intro fuel
  induction fuel with
  | zero =>
    intro rlo rhi B r h
    exact ⟨le_refl _, h⟩
  | succ f ih =>
    intro rlo rhi B r h
    simp only [forwardAux]
    by_cases h1 : rhi ≤ rlo + 1
    · rw [if_pos h1]
      exact ⟨le_refl _, h⟩
    · rw [if_neg h1]
      by_cases h2 : r < min (samp rlo rhi B) B
      · rw [if_pos h2]
        have := ih rlo ((rlo + rhi) / 2) (min (samp rlo rhi B) B) r (by omega)
        omega
      · rw [if_neg h2]
        have := ih ((rlo + rhi) / 2) rhi (B - min (samp rlo rhi B) B)
          (r - min (samp rlo rhi B) B) (by omega)
        omega

theorem inverseAux_bounds (samp : Nat → Nat → Nat → Nat) :
    ∀ (fuel rlo rhi B ofs y : Nat),
    ofs ≤ (inverseAux samp fuel rlo rhi B ofs y).1 ∧
    (inverseAux samp fuel rlo rhi B ofs y).1 + (inverseAux samp fuel rlo rhi B ofs y).2 ≤
      ofs + B := by
  intro fuel
  induction fuel with
  | zero =>
    intro rlo rhi B ofs y
    exact ⟨le_refl _, le_refl _⟩
  | succ f ih =>
    intro rlo rhi B ofs y
    simp only [inverseAux]
    by_cases h1 : rhi ≤ rlo + 1
    · rw [if_pos h1]
      exact ⟨le_refl _, le_refl _⟩
    · rw [if_neg h1]
      have hL : min (samp rlo rhi B) B ≤ B := Nat.min_le_right _ _
      by_cases h2 : y < (rlo + rhi) / 2
      · rw [if_pos h2]
        have := ih rlo ((rlo + rhi) / 2) (min (samp rlo rhi B) B) ofs y
        omega
      · rw [if_neg h2]
        have := ih ((rlo + rhi) / 2) rhi (B - min (samp rlo rhi B) B)
          (ofs + min (samp rlo rhi B) B) y
        omega

theorem forwardAux_in_inverseAux (samp : Nat → Nat → Nat → Nat) :
    ∀ (fuel rlo rhi B ofs r : Nat), r < B →
    (inverseAux samp fuel rlo rhi B ofs (forwardAux samp fuel rlo rhi B r)).1 ≤ ofs + r ∧
    ofs + r < (inverseAux samp fuel rlo rhi B ofs (forwardAux samp fuel rlo rhi B r)).1 +
      (inverseAux samp fuel rlo rhi B ofs (forwardAux samp fuel rlo rhi B r)).2 := by
  intro fuel
  induction fuel with
  | zero =>
    intro rlo rhi B ofs r hr
    exact ⟨Nat.le_add_right ofs r, Nat.add_lt_add_left hr ofs⟩
  | succ f ih =>
    intro rlo rhi B ofs r hr
    by_cases h1 : rhi ≤ rlo + 1
    · have e1 : forwardAux samp (f + 1) rlo rhi B r = rlo := by
        simp only [forwardAux]
        rw [if_pos h1]
      have e2 : inverseAux samp (f + 1) rlo rhi B ofs rlo = (ofs, B) := by
        simp only [inverseAux]
        rw [if_pos h1]
      rw [e1, e2]
      show ofs ≤ ofs + r ∧ ofs + r < ofs + B
      omega
    · by_cases h2 : r < min (samp rlo rhi B) B
      · have e1 : forwardAux samp (f + 1) rlo rhi B r =
            forwardAux samp f rlo ((rlo + rhi) / 2) (min (samp rlo rhi B) B) r := by
          simp only [forwardAux]
          rw [if_neg h1, if_pos h2]
        have hy := forwardAux_mem samp f rlo ((rlo + rhi) / 2)
          (min (samp rlo rhi B) B) r (by omega)
        have e2 : inverseAux samp (f + 1) rlo rhi B ofs
            (forwardAux samp f rlo ((rlo + rhi) / 2) (min (samp rlo rhi B) B) r) =
            inverseAux samp f rlo ((rlo + rhi) / 2) (min (samp rlo rhi B) B) ofs
              (forwardAux samp f rlo ((rlo + rhi) / 2) (min (samp rlo rhi B) B) r) := by
          simp only [inverseAux]
          rw [if_neg h1, if_pos (by omega)]
        rw [e1, e2]
        exact ih rlo ((rlo + rhi) / 2) (min (samp rlo rhi B) B) ofs r h2
      · have e1 : forwardAux samp (f + 1) rlo rhi B r =
            forwardAux samp f ((rlo + rhi) / 2) rhi (B - min (samp rlo rhi B) B)
              (r - min (samp rlo rhi B) B) := by
          simp only [forwardAux]
          rw [if_neg h1, if_neg h2]
        have hy := forwardAux_mem samp f ((rlo + rhi) / 2) rhi
          (B - min (samp rlo rhi B) B) (r - min (samp rlo rhi B) B) (by omega)
        have e2 : inverseAux samp (f + 1) rlo rhi B ofs
            (forwardAux samp f ((rlo + rhi) / 2) rhi (B - min (samp rlo rhi B) B)
              (r - min (samp rlo rhi B) B)) =
            inverseAux samp f ((rlo + rhi) / 2) rhi (B - min (samp rlo rhi B) B)
              (ofs + min (samp rlo rhi B) B)
              (forwardAux samp f ((rlo + rhi) / 2) rhi (B - min (samp rlo rhi B) B)
                (r - min (samp rlo rhi B) B)) := by
          simp only [inverseAux]
          rw [if_neg h1, if_neg (by omega)]
        rw [e1, e2]
        have := ih ((rlo + rhi) / 2) rhi (B - min (samp rlo rhi B) B)
          (ofs + min (samp rlo rhi B) B) (r - min (samp rlo rhi B) B) (by omega)
        omega

theorem inverseAux_forwardAux (samp : Nat → Nat → Nat → Nat) :
    ∀ (fuel rlo rhi B ofs y r : Nat), rhi - rlo ≤ fuel + 1 →
    rlo ≤ y → y < rhi →
    (inverseAux samp fuel rlo rhi B ofs y).1 ≤ ofs + r →
    ofs + r < (inverseAux samp fuel rlo rhi B ofs y).1 +
      (inverseAux samp fuel rlo rhi B ofs y).2 →
    forwardAux samp fuel rlo rhi B r = y := by
  intro fuel
  induction fuel with
  | zero =>
    intro rlo rhi B ofs y r hfuel hy1 hy2 _ _
    simp only [forwardAux]
    omega
  | succ f ih =>
    intro rlo rhi B ofs y r hfuel hy1 hy2 hr1 hr2
    simp only [forwardAux] at *
    simp only [inverseAux] at hr1 hr2
    by_cases h1 : rhi ≤ rlo + 1
    · rw [if_pos h1]
      omega
    · rw [if_neg h1] at hr1 hr2 ⊢
      by_cases h2 : y < (rlo + rhi) / 2
      · rw [if_pos h2] at hr1 hr2
        have hb := inverseAux_bounds samp f rlo ((rlo + rhi) / 2)
          (min (samp rlo rhi B) B) ofs y
        have hrL : r < min (samp rlo rhi B) B := by omega
        rw [if_pos hrL]
        exact ih rlo ((rlo + rhi) / 2) (min (samp rlo rhi B) B) ofs y r
          (by omega) hy1 h2 hr1 hr2
      · rw [if_neg h2] at hr1 hr2
        have hb := inverseAux_bounds samp f ((rlo + rhi) / 2) rhi
          (B - min (samp rlo rhi B) B) (ofs + min (samp rlo rhi B) B) y
        have hrL : ¬(r < min (samp rlo rhi B) B) := by omega
        rw [if_neg hrL]
        refine ih ((rlo + rhi) / 2) rhi (B - min (samp rlo rhi B) B)
          (ofs + min (samp rlo rhi B) B) y (r - min (samp rlo rhi B) B)
          (by omega) (by omega) hy2 (by omega) (by omega)

/-- C7: for the spec-modelled iPRF with any deterministic clamped binomial
sampler shared between the two directions, and parameters `n, m > 0`: every
`x ∈ [0, n)` is a member of `inverse (forward x)`, and every
`x ∈ inverse y` for `y ∈ [0, m)` satisfies `forward x = y`. -/
theorem iprf_forward_inverse_consistent :
    ∀ (samp : Nat → Nat → Nat → Nat) (n m : Nat), 0 < n → 0 < m →
    (∀ x, x < n → x ∈ iprfInverse samp n m (iprfForward samp n m x)) ∧
    (∀ y, y < m → ∀ x, x ∈ iprfInverse samp n m y → iprfForward samp n m x = y) := by
  intro samp n m hn hm
  constructor
  · intro x hx
    have h := forwardAux_in_inverseAux samp m 0 m n 0 x hx
    unfold iprfInverse iprfForward
    simp only [List.mem_map, List.mem_range]
    exact ⟨x - (inverseAux samp m 0 m n 0 (forwardAux samp m 0 m n x)).1, by omega, by omega⟩
  · intro y hy x hxmem
    unfold iprfInverse at hxmem
    simp only [List.mem_map, List.mem_range] at hxmem
    obtain ⟨j, hj, rfl⟩ := hxmem
    have hb := inverseAux_bounds samp m 0 m n 0 y
    exact inverseAux_forwardAux samp m 0 m n 0 y
      ((inverseAux samp m 0 m n 0 y).1 + j) (by omega) (Nat.zero_le y) hy
      (by omega) (by omega)

theorem iprf_forward_inverse_consistent_witness :
    0 < 4 ∧ 0 < 2 ∧ 3 < 4 ∧ 1 < 2 ∧
    3 ∈ iprfInverse halfSampler 4 2 (iprfForward halfSampler 4 2 3) ∧
    ∀ x, x ∈ iprfInverse halfSampler 4 2 1 → iprfForward halfSampler 4 2 x = 1 :=
  ⟨by decide, by decide, by decide, by decide,
   (iprf_forward_inverse_consistent halfSampler 4 2 (by decide) (by decide)).1 3 (by decide),
   (iprf_forward_inverse_consistent halfSampler 4 2 (by decide) (by decide)).2 1 (by decide)⟩

end Plinko
